import Mathlib

/-!
# Single-qubit state, gates and Bloch projection

A shallow embedding of `class Qubit` of `src/main.cpp` (lines 15-62) and of the
gate dispatch of `keyCallback`, followed by the properties of the numerical core.

The source stores the two amplitudes as `std::complex<double>`.  Here an amplitude
is an exact complex number (`ℂ`, a pair of exact reals), so `double` rounding is
idealised away; every arithmetic step of the source is kept: the `complex(re, im)`
constructors, complex multiplication, unary minus, division of a complex number by
a real one, and the component-wise formulas of `getBlochVector`.  Because the
scalars are exact reals, the definitions that divide or call `sqrt`, `cos` or `sin`
are `noncomputable`; the remaining ones are ordinary functions.
-/

namespace BlochSphere

/-- The `operator/(const complex<double>&, const double&)` overload of the standard
library: both components are divided by the real divisor. -/
noncomputable def divReal (z : ℂ) (r : ℝ) : ℂ := ⟨z.re / r, z.im / r⟩

/-- The private members of `class Qubit`: `complex<double> alpha; complex<double> beta;`. -/
@[ext]
structure Qubit where
  alpha : ℂ
  beta : ℂ

/-- The `vec3` value returned by `getBlochVector`, with exact real components. -/
@[ext]
structure Vec3 where
  x : ℝ
  y : ℝ
  z : ℝ

namespace Qubit

/-- The constructor `Qubit() : alpha(1.0, 0.0), beta(0.0, 0.0) {}`. -/
def init : Qubit := { alpha := ⟨1, 0⟩, beta := ⟨0, 0⟩ }

/-- The method `applyHadamard`:
`new_alpha = (alpha + beta) / sqrt(2.0); new_beta = (alpha - beta) / sqrt(2.0);`
then both members are overwritten. -/
noncomputable def applyHadamard (q : Qubit) : Qubit :=
  let new_alpha : ℂ := divReal (q.alpha + q.beta) (Real.sqrt 2)
  let new_beta : ℂ := divReal (q.alpha - q.beta) (Real.sqrt 2)
  { alpha := new_alpha, beta := new_beta }

/-- The method `applyPauliX`: `swap(alpha, beta);`. -/
def applyPauliX (q : Qubit) : Qubit :=
  { alpha := q.beta, beta := q.alpha }

/-- The method `applyPauliY`: with `i(0.0, 1.0)`,
`new_alpha = -i * beta; new_beta = i * alpha;` then both members are overwritten. -/
def applyPauliY (q : Qubit) : Qubit :=
  let i : ℂ := ⟨0, 1⟩
  let new_alpha : ℂ := -i * q.beta
  let new_beta : ℂ := i * q.alpha
  { alpha := new_alpha, beta := new_beta }

/-- The method `applyPauliZ`: `beta = -beta;`, `alpha` is left untouched. -/
def applyPauliZ (q : Qubit) : Qubit :=
  { alpha := q.alpha, beta := -q.beta }

/-- The method `rotateX(double theta)`: with `c(cos(theta/2), 0.0)` and
`s(0.0, -sin(theta/2))`, `new_alpha = c * alpha + s * beta;`
`new_beta = s * alpha + c * beta;` then both members are overwritten. -/
noncomputable def rotateX (q : Qubit) (theta : ℝ) : Qubit :=
  let c : ℂ := ⟨Real.cos (theta / 2), 0⟩
  let s : ℂ := ⟨0, -Real.sin (theta / 2)⟩
  let new_alpha : ℂ := c * q.alpha + s * q.beta
  let new_beta : ℂ := s * q.alpha + c * q.beta
  { alpha := new_alpha, beta := new_beta }

/-- The method `getBlochVector`, component by component as the source writes it. -/
def getBlochVector (q : Qubit) : Vec3 :=
  let x : ℝ := 2 * (q.alpha.re * q.beta.re + q.alpha.im * q.beta.im)
  let y : ℝ := 2 * (q.alpha.im * q.beta.re - q.alpha.re * q.beta.im)
  let z : ℝ := q.alpha.re * q.alpha.re + q.alpha.im * q.alpha.im -
    q.beta.re * q.beta.re - q.beta.im * q.beta.im
  { x := x, y := y, z := z }

end Qubit

/-- The gate commands of `keyCallback` and of the animation tick of `main`: the four
parameterless gates and `rotateX` with its angle. -/
inductive Gate where
  | hadamard : Gate
  | pauliX : Gate
  | pauliY : Gate
  | pauliZ : Gate
  | rotX (theta : ℝ) : Gate

/-- One gate command applied to the state, as each `case` of `keyCallback` does. -/
noncomputable def Gate.apply : Gate → Qubit → Qubit
  | .hadamard, q => q.applyHadamard
  | .pauliX, q => q.applyPauliX
  | .pauliY, q => q.applyPauliY
  | .pauliZ, q => q.applyPauliZ
  | .rotX theta, q => q.rotateX theta

/-- A finite sequence of gate commands applied in order, the first one first. -/
noncomputable def runGates : List Gate → Qubit → Qubit
  | [], q => q
  | g :: gs, q => runGates gs (g.apply q)

/-- The quantity of the normalization invariant, `|alpha|^2 + |beta|^2`. -/
def Qubit.totalProb (q : Qubit) : ℝ :=
  Complex.normSq q.alpha + Complex.normSq q.beta

/-- The squared length `x^2 + y^2 + z^2` of a vector. -/
def Vec3.lenSq (v : Vec3) : ℝ := v.x ^ 2 + v.y ^ 2 + v.z ^ 2

/-- The projection in the words of section 4.2 of the specification,
`x = 2 Re(alpha * conj beta)`, `y = 2 Im(conj alpha * beta)`,
`z = |alpha|^2 - |beta|^2`, kept apart from `getBlochVector` to compare the two. -/
def specBlochVector (q : Qubit) : Vec3 :=
  { x := 2 * (q.alpha * (starRingEnd ℂ) q.beta).re,
    y := 2 * ((starRingEnd ℂ) q.alpha * q.beta).im,
    z := Complex.normSq q.alpha - Complex.normSq q.beta }

/-- The inner product `conj p.alpha * q.alpha + conj p.beta * q.beta` of two states,
used to read a gate's expectation value `<q | gate q>`. -/
def Qubit.inner (p q : Qubit) : ℂ :=
  (starRingEnd ℂ) p.alpha * q.alpha + (starRingEnd ℂ) p.beta * q.beta

/-! ## Helper facts -/

theorem sqrt_two_mul_self : Real.sqrt 2 * Real.sqrt 2 = 2 :=
  Real.mul_self_sqrt (by norm_num)

theorem sqrt_two_ne_zero : Real.sqrt 2 ≠ 0 := by
  intro h
  have := sqrt_two_mul_self
  rw [h] at this
  norm_num at this

/-- Two states are equal when their four real components are. -/
theorem Qubit.eq_of_parts {p q : Qubit} (h1 : p.alpha.re = q.alpha.re)
    (h2 : p.alpha.im = q.alpha.im) (h3 : p.beta.re = q.beta.re)
    (h4 : p.beta.im = q.beta.im) : p = q :=
  Qubit.ext (Complex.ext h1 h2) (Complex.ext h3 h4)

/-- Real and imaginary parts of the state after `rotateX`. -/
theorem rotateX_parts (q : Qubit) (theta : ℝ) :
    (q.rotateX theta).alpha.re =
        Real.cos (theta / 2) * q.alpha.re + Real.sin (theta / 2) * q.beta.im ∧
    (q.rotateX theta).alpha.im =
        Real.cos (theta / 2) * q.alpha.im - Real.sin (theta / 2) * q.beta.re ∧
    (q.rotateX theta).beta.re =
        Real.sin (theta / 2) * q.alpha.im + Real.cos (theta / 2) * q.beta.re ∧
    (q.rotateX theta).beta.im =
        Real.cos (theta / 2) * q.beta.im - Real.sin (theta / 2) * q.alpha.re := by
  refine ⟨?_, ?_, ?_, ?_⟩ <;> simp [Qubit.rotateX] <;> ring

/-- Real and imaginary parts of the state after `applyHadamard`. -/
theorem applyHadamard_parts (q : Qubit) :
    q.applyHadamard.alpha.re = (q.alpha.re + q.beta.re) / Real.sqrt 2 ∧
    q.applyHadamard.alpha.im = (q.alpha.im + q.beta.im) / Real.sqrt 2 ∧
    q.applyHadamard.beta.re = (q.alpha.re - q.beta.re) / Real.sqrt 2 ∧
    q.applyHadamard.beta.im = (q.alpha.im - q.beta.im) / Real.sqrt 2 := by
  refine ⟨?_, ?_, ?_, ?_⟩ <;> simp [Qubit.applyHadamard, divReal]

/-- Real and imaginary parts of the state after `applyPauliY`. -/
theorem applyPauliY_parts (q : Qubit) :
    q.applyPauliY.alpha.re = q.beta.im ∧ q.applyPauliY.alpha.im = -q.beta.re ∧
    q.applyPauliY.beta.re = -q.alpha.im ∧ q.applyPauliY.beta.im = q.alpha.re := by
  refine ⟨?_, ?_, ?_, ?_⟩ <;> simp [Qubit.applyPauliY]

/-- Dividing by `sqrt 2` twice halves. -/
theorem div_sqrt_two_twice (a : ℝ) : a / Real.sqrt 2 / Real.sqrt 2 = a / 2 := by
  rw [div_div, sqrt_two_mul_self]

/-- The cosine of an angle from the sine and cosine of its half. -/
theorem cos_of_half (theta : ℝ) :
    Real.cos theta = 2 * Real.cos (theta / 2) ^ 2 - 1 := by
  have h := Real.cos_two_mul (theta / 2)
  rwa [mul_div_cancel₀ theta (two_ne_zero : (2 : ℝ) ≠ 0)] at h

/-- The sine of an angle from the sine and cosine of its half. -/
theorem sin_of_half (theta : ℝ) :
    Real.sin theta = 2 * Real.sin (theta / 2) * Real.cos (theta / 2) := by
  have h := Real.sin_two_mul (theta / 2)
  rwa [mul_div_cancel₀ theta (two_ne_zero : (2 : ℝ) ≠ 0)] at h

/-- Every gate leaves `|alpha|^2 + |beta|^2` unchanged, on every state. -/
theorem totalProb_apply (g : Gate) (q : Qubit) : (g.apply q).totalProb = q.totalProb := by
  cases g with
  | hadamard =>
    obtain ⟨h1, h2, h3, h4⟩ := applyHadamard_parts q
    simp only [Gate.apply, Qubit.totalProb, Complex.normSq_apply, h1, h2, h3, h4]
    simp only [div_mul_div_comm, sqrt_two_mul_self]
    ring
  | pauliX =>
    simp only [Gate.apply, Qubit.totalProb, Qubit.applyPauliX]
    ring
  | pauliY =>
    obtain ⟨h1, h2, h3, h4⟩ := applyPauliY_parts q
    simp only [Gate.apply, Qubit.totalProb, Complex.normSq_apply, h1, h2, h3, h4]
    ring
  | pauliZ =>
    simp only [Gate.apply, Qubit.totalProb, Qubit.applyPauliZ, Complex.normSq_neg]
  | rotX theta =>
    obtain ⟨h1, h2, h3, h4⟩ := rotateX_parts q theta
    simp only [Gate.apply, Qubit.totalProb, Complex.normSq_apply, h1, h2, h3, h4]
    have hcs := Real.sin_sq_add_cos_sq (theta / 2)
    linear_combination
      (q.alpha.re * q.alpha.re + q.alpha.im * q.alpha.im + q.beta.re * q.beta.re
        + q.beta.im * q.beta.im) * hcs

/-- A sequence of gates leaves `|alpha|^2 + |beta|^2` unchanged. -/
theorem totalProb_runGates (gs : List Gate) (q : Qubit) :
    (runGates gs q).totalProb = q.totalProb := by
  induction gs generalizing q with
  | nil => rfl
  | cons g gs ih => rw [runGates, ih, totalProb_apply]

/-- The constructor's state has `|alpha|^2 + |beta|^2 = 1`. -/
theorem totalProb_init : Qubit.init.totalProb = 1 := by
  simp [Qubit.totalProb, Qubit.init, Complex.normSq_apply]

/-- The squared length of the projected vector is `(|alpha|^2 + |beta|^2)^2`. -/
theorem lenSq_getBlochVector (q : Qubit) :
    q.getBlochVector.lenSq = q.totalProb ^ 2 := by
  simp only [Vec3.lenSq, Qubit.getBlochVector, Qubit.totalProb, Complex.normSq_apply]
  ring

/-- The projection of the state after `rotateX`, from the projection before it. -/
theorem getBlochVector_rotateX (q : Qubit) (theta : ℝ) :
    (q.rotateX theta).getBlochVector =
      { x := q.getBlochVector.x,
        y := q.getBlochVector.y * Real.cos theta + q.getBlochVector.z * Real.sin theta,
        z := q.getBlochVector.z * Real.cos theta - q.getBlochVector.y * Real.sin theta } := by
  obtain ⟨h1, h2, h3, h4⟩ := rotateX_parts q theta
  have hcs := Real.sin_sq_add_cos_sq (theta / 2)
  apply Vec3.ext
  · simp only [Qubit.getBlochVector, h1, h2, h3, h4]
    linear_combination (2 * (q.alpha.re * q.beta.re + q.alpha.im * q.beta.im)) * hcs
  · simp only [Qubit.getBlochVector, h1, h2, h3, h4, cos_of_half theta, sin_of_half theta]
    linear_combination (-2 * (q.alpha.im * q.beta.re - q.alpha.re * q.beta.im)) * hcs
  · simp only [Qubit.getBlochVector, h1, h2, h3, h4, cos_of_half theta, sin_of_half theta]
    linear_combination
      (-(q.alpha.re * q.alpha.re + q.alpha.im * q.alpha.im - q.beta.re * q.beta.re
        - q.beta.im * q.beta.im)) * hcs

/-- The projection of the constructor's state is the north pole. -/
theorem getBlochVector_init : Qubit.init.getBlochVector = { x := 0, y := 0, z := 1 } := by
  apply Vec3.ext <;> simp [Qubit.getBlochVector, Qubit.init]

/-- The projection of the state after `applyPauliX`, from the projection before it. -/
theorem getBlochVector_applyPauliX (q : Qubit) :
    q.applyPauliX.getBlochVector =
      { x := q.getBlochVector.x, y := -q.getBlochVector.y, z := -q.getBlochVector.z } := by
  apply Vec3.ext <;> simp only [Qubit.getBlochVector, Qubit.applyPauliX] <;> ring

/-- On every state the `x` and `z` of `getBlochVector` are those of the formulas of
the specification, and its `y` is the opposite of `2 Im(conj alpha * beta)`: the
source computes `2 Im(alpha * conj beta)`. -/
theorem specBlochVector_eq (q : Qubit) :
    specBlochVector q =
      { x := q.getBlochVector.x, y := -q.getBlochVector.y, z := q.getBlochVector.z } := by
  apply Vec3.ext
  · simp only [specBlochVector, Qubit.getBlochVector, Complex.mul_re, Complex.conj_re,
      Complex.conj_im]
    ring
  · simp only [specBlochVector, Qubit.getBlochVector, Complex.mul_im, Complex.conj_re,
      Complex.conj_im]
    ring
  · simp only [specBlochVector, Qubit.getBlochVector, Complex.normSq_apply]
    ring

/-- On every state the `x` and `z` of `getBlochVector` are the expectation values of
the source's own `applyPauliX` and `applyPauliZ`, while its `y` is the opposite of
the expectation value of the source's own `applyPauliY`. -/
theorem getBlochVector_vs_pauli_expectations (q : Qubit) :
    (q.inner q.applyPauliX).re = q.getBlochVector.x ∧
    (q.inner q.applyPauliY).re = -q.getBlochVector.y ∧
    (q.inner q.applyPauliZ).re = q.getBlochVector.z := by
  obtain ⟨k1, k2, k3, k4⟩ := applyPauliY_parts q
  refine ⟨?_, ?_, ?_⟩
  · simp only [Qubit.inner, Qubit.getBlochVector, Qubit.applyPauliX, Complex.add_re,
      Complex.mul_re, Complex.conj_re, Complex.conj_im]
    ring
  · simp only [Qubit.inner, Qubit.getBlochVector, Complex.add_re, Complex.mul_re,
      Complex.conj_re, Complex.conj_im, k1, k2, k3, k4]
    ring
  · simp only [Qubit.inner, Qubit.getBlochVector, Qubit.applyPauliZ, Complex.add_re,
      Complex.mul_re, Complex.conj_re, Complex.conj_im, Complex.neg_re, Complex.neg_im]
    ring

/-- The projection of the state a quarter turn `rotateX(pi/2)` away from the
constructor's state. -/
theorem getBlochVector_quarter :
    (Qubit.init.rotateX (Real.pi / 2)).getBlochVector = { x := 0, y := 1, z := 0 } := by
  rw [getBlochVector_rotateX, getBlochVector_init, Real.cos_pi_div_two, Real.sin_pi_div_two]
  apply Vec3.ext <;> simp

/-! ## Gate transforms -/

/-- Claim C3: each gate computes the transform of the specification table from the
old pair `(alpha, beta)`: Hadamard gives `((alpha+beta)/sqrt 2, (alpha-beta)/sqrt 2)`,
Pauli-X gives `(beta, alpha)`, Pauli-Y gives `(-i*beta, i*alpha)`, Pauli-Z gives
`(alpha, -beta)` and Rotate-X gives
`(cos(theta/2)*alpha - i*sin(theta/2)*beta, -i*sin(theta/2)*alpha + cos(theta/2)*beta)`. -/
theorem gate_transforms_match_table (q : Qubit) (theta : ℝ) :
    q.applyHadamard =
      { alpha := (q.alpha + q.beta) / ((Real.sqrt 2 : ℝ) : ℂ),
        beta := (q.alpha - q.beta) / ((Real.sqrt 2 : ℝ) : ℂ) } ∧
    q.applyPauliX = { alpha := q.beta, beta := q.alpha } ∧
    q.applyPauliY = { alpha := -Complex.I * q.beta, beta := Complex.I * q.alpha } ∧
    q.applyPauliZ = { alpha := q.alpha, beta := -q.beta } ∧
    q.rotateX theta =
      { alpha := ((Real.cos (theta / 2) : ℝ) : ℂ) * q.alpha
          - Complex.I * ((Real.sin (theta / 2) : ℝ) : ℂ) * q.beta,
        beta := -Complex.I * ((Real.sin (theta / 2) : ℝ) : ℂ) * q.alpha
          + ((Real.cos (theta / 2) : ℝ) : ℂ) * q.beta } := by
  refine ⟨?_, rfl, ?_, rfl, ?_⟩
  · obtain ⟨h1, h2, h3, h4⟩ := applyHadamard_parts q
    apply Qubit.eq_of_parts
    · rw [h1, Complex.div_ofReal_re]; simp
    · rw [h2, Complex.div_ofReal_im]; simp
    · rw [h3, Complex.div_ofReal_re]; simp
    · rw [h4, Complex.div_ofReal_im]; simp
  · obtain ⟨h1, h2, h3, h4⟩ := applyPauliY_parts q
    apply Qubit.eq_of_parts
    · rw [h1]; simp
    · rw [h2]; simp
    · rw [h3]; simp
    · rw [h4]; simp
  · obtain ⟨h1, h2, h3, h4⟩ := rotateX_parts q theta
    apply Qubit.eq_of_parts
    · rw [h1]; simp [-Complex.ofReal_cos, -Complex.ofReal_sin]
    · rw [h2]; simp [-Complex.ofReal_cos, -Complex.ofReal_sin]
    · rw [h3]; simp [-Complex.ofReal_cos, -Complex.ofReal_sin]
    · rw [h4]; simp [-Complex.ofReal_cos, -Complex.ofReal_sin]; ring

/-! ## Self-inverse laws -/

/-- Claim C4: on every state, normalized or not, applying Hadamard twice, Pauli-X
twice, Pauli-Y twice or Pauli-Z twice gives back exactly the original state. -/
theorem self_inverse_laws (q : Qubit) :
    q.applyHadamard.applyHadamard = q ∧ q.applyPauliX.applyPauliX = q ∧
    q.applyPauliY.applyPauliY = q ∧ q.applyPauliZ.applyPauliZ = q := by
  refine ⟨?_, rfl, ?_, ?_⟩
  · obtain ⟨h1, h2, h3, h4⟩ := applyHadamard_parts q.applyHadamard
    obtain ⟨k1, k2, k3, k4⟩ := applyHadamard_parts q
    apply Qubit.eq_of_parts
    · rw [h1, k1, k3, ← add_div, div_sqrt_two_twice]; ring
    · rw [h2, k2, k4, ← add_div, div_sqrt_two_twice]; ring
    · rw [h3, k1, k3, ← sub_div, div_sqrt_two_twice]; ring
    · rw [h4, k2, k4, ← sub_div, div_sqrt_two_twice]; ring
  · obtain ⟨h1, h2, h3, h4⟩ := applyPauliY_parts q.applyPauliY
    obtain ⟨k1, k2, k3, k4⟩ := applyPauliY_parts q
    apply Qubit.eq_of_parts
    · rw [h1, k4]
    · rw [h2, k3, neg_neg]
    · rw [h3, k2, neg_neg]
    · rw [h4, k1]
  · apply Qubit.eq_of_parts <;> simp [Qubit.applyPauliZ]

/-! ## Normalization and the Bloch norm -/

/-- Claim C1: from the constructor's state every finite sequence of gates ends in a
state with `|alpha|^2 + |beta|^2 = 1`, and each of the five gates maps every state
with `|alpha|^2 + |beta|^2 = 1` to such a state. -/
theorem normalization_invariant :
    (∀ gs : List Gate, (runGates gs Qubit.init).totalProb = 1) ∧
    (∀ (q : Qubit) (theta : ℝ), q.totalProb = 1 →
      q.applyHadamard.totalProb = 1 ∧ q.applyPauliX.totalProb = 1 ∧
      q.applyPauliY.totalProb = 1 ∧ q.applyPauliZ.totalProb = 1 ∧
      (q.rotateX theta).totalProb = 1) := by
  refine ⟨fun gs => ?_, fun q theta h => ⟨?_, ?_, ?_, ?_, ?_⟩⟩
  · rw [totalProb_runGates, totalProb_init]
  · exact (totalProb_apply .hadamard q).trans h
  · exact (totalProb_apply .pauliX q).trans h
  · exact (totalProb_apply .pauliY q).trans h
  · exact (totalProb_apply .pauliZ q).trans h
  · exact (totalProb_apply (.rotX theta) q).trans h

/-- The invariant of C1 at the constructor's state and at three gates in a row. -/
theorem normalization_invariant_witness :
    (runGates [.hadamard, .rotX 1, .pauliY] Qubit.init).totalProb = 1 ∧
    Qubit.init.applyHadamard.totalProb = 1 :=
  ⟨normalization_invariant.1 [.hadamard, .rotX 1, .pauliY],
    (normalization_invariant.2 Qubit.init 0 totalProb_init).1⟩

/-- Claim C7: for every state reachable from the constructor's state by a finite
sequence of gates, the vector `(x, y, z)` of `getBlochVector` has
`x^2 + y^2 + z^2 <= 1`, with equality. -/
theorem bloch_norm_bound (gs : List Gate) :
    (runGates gs Qubit.init).getBlochVector.x ^ 2
        + (runGates gs Qubit.init).getBlochVector.y ^ 2
        + (runGates gs Qubit.init).getBlochVector.z ^ 2 ≤ 1 ∧
    (runGates gs Qubit.init).getBlochVector.x ^ 2
        + (runGates gs Qubit.init).getBlochVector.y ^ 2
        + (runGates gs Qubit.init).getBlochVector.z ^ 2 = 1 := by
  have h : (runGates gs Qubit.init).getBlochVector.lenSq = 1 := by
    rw [lenSq_getBlochVector, totalProb_runGates, totalProb_init]
    norm_num
  exact ⟨le_of_eq h, h⟩

/-! ## Rotation laws -/

/-- Claim C5: on every state, `rotateX(a)` followed by `rotateX(b)` gives the same
state as `rotateX(a + b)`. -/
theorem rotateX_composition (q : Qubit) (a b : ℝ) :
    (q.rotateX a).rotateX b = q.rotateX (a + b) := by
  obtain ⟨h1, h2, h3, h4⟩ := rotateX_parts (q.rotateX a) b
  obtain ⟨k1, k2, k3, k4⟩ := rotateX_parts q a
  obtain ⟨m1, m2, m3, m4⟩ := rotateX_parts q (a + b)
  have hc : Real.cos ((a + b) / 2) =
      Real.cos (a / 2) * Real.cos (b / 2) - Real.sin (a / 2) * Real.sin (b / 2) := by
    rw [add_div, Real.cos_add]
  have hs : Real.sin ((a + b) / 2) =
      Real.sin (a / 2) * Real.cos (b / 2) + Real.cos (a / 2) * Real.sin (b / 2) := by
    rw [add_div, Real.sin_add]
  apply Qubit.eq_of_parts
  · rw [h1, k1, k4, m1, hc, hs]; ring
  · rw [h2, k2, k3, m2, hc, hs]; ring
  · rw [h3, k2, k3, m3, hc, hs]; ring
  · rw [h4, k4, k1, m4, hc, hs]; ring

/-- Claim C8: on every state, `rotateX(2*pi)` gives exactly `(-alpha, -beta)`, the
original state up to a global phase, and the vector of `getBlochVector` is the one
of the original state. -/
theorem rotateX_periodicity (q : Qubit) :
    q.rotateX (2 * Real.pi) = { alpha := -q.alpha, beta := -q.beta } ∧
    (q.rotateX (2 * Real.pi)).getBlochVector = q.getBlochVector := by
  constructor
  · obtain ⟨h1, h2, h3, h4⟩ := rotateX_parts q (2 * Real.pi)
    have hpi : 2 * Real.pi / 2 = Real.pi := by ring
    rw [hpi, Real.cos_pi, Real.sin_pi] at h1 h2 h3 h4
    apply Qubit.eq_of_parts
    · rw [h1]; simp
    · rw [h2]; simp
    · rw [h3]; simp
    · rw [h4]; simp
  · rw [getBlochVector_rotateX, Real.cos_two_pi, Real.sin_two_pi]
    apply Vec3.ext <;> simp

/-- Claim C10: on every state with projected vector `(x, y, z)`, the projected
vector after `rotateX(theta)` is
`(x, y*cos(theta) + z*sin(theta), z*cos(theta) - y*sin(theta))`; the `x` component
is unchanged, and from the constructor's state the vector is
`(0, sin(theta), cos(theta))`. -/
theorem rotateX_handedness (q : Qubit) (theta : ℝ) :
    (q.rotateX theta).getBlochVector =
      { x := q.getBlochVector.x,
        y := q.getBlochVector.y * Real.cos theta + q.getBlochVector.z * Real.sin theta,
        z := q.getBlochVector.z * Real.cos theta - q.getBlochVector.y * Real.sin theta } ∧
    (q.rotateX theta).getBlochVector.x = q.getBlochVector.x ∧
    (Qubit.init.rotateX theta).getBlochVector =
      { x := 0, y := Real.sin theta, z := Real.cos theta } := by
  refine ⟨getBlochVector_rotateX q theta, ?_, ?_⟩
  · rw [getBlochVector_rotateX]
  · rw [getBlochVector_rotateX, getBlochVector_init]
    apply Vec3.ext <;> simp

/-! ## Scenarios from the constructor's state -/

/-- Claim C9: the constructor builds `(1, 0)`, projected to `(0, 0, 1)`; one
Hadamard from it gives `alpha = beta = 1/sqrt 2`, projected to `(1, 0, 0)`; one
Pauli-X gives `(0, 1)`, projected to `(0, 0, -1)`; one Pauli-Y gives `(0, i)`,
projected to `(0, 0, -1)`. -/
theorem basis_state_scenarios :
    Qubit.init = { alpha := 1, beta := 0 } ∧
    Qubit.init.getBlochVector = { x := 0, y := 0, z := 1 } ∧
    Qubit.init.applyHadamard =
      { alpha := ((1 / Real.sqrt 2 : ℝ) : ℂ), beta := ((1 / Real.sqrt 2 : ℝ) : ℂ) } ∧
    Qubit.init.applyHadamard.getBlochVector = { x := 1, y := 0, z := 0 } ∧
    Qubit.init.applyPauliX = { alpha := 0, beta := 1 } ∧
    Qubit.init.applyPauliX.getBlochVector = { x := 0, y := 0, z := -1 } ∧
    Qubit.init.applyPauliY = { alpha := 0, beta := Complex.I } ∧
    Qubit.init.applyPauliY.getBlochVector = { x := 0, y := 0, z := -1 } := by
  obtain ⟨h1, h2, h3, h4⟩ := applyHadamard_parts Qubit.init
  obtain ⟨k1, k2, k3, k4⟩ := applyPauliY_parts Qubit.init
  have i1 : Qubit.init.alpha.re = 1 := rfl
  have i2 : Qubit.init.alpha.im = 0 := rfl
  have i3 : Qubit.init.beta.re = 0 := rfl
  have i4 : Qubit.init.beta.im = 0 := rfl
  rw [i1, i3] at h1 h3
  rw [i2, i4] at h2 h4
  rw [i4] at k1
  rw [i3] at k2
  rw [i2] at k3
  rw [i1] at k4
  refine ⟨?_, getBlochVector_init, ?_, ?_, ?_, ?_, ?_, ?_⟩
  · apply Qubit.eq_of_parts <;> simp [Qubit.init]
  · apply Qubit.eq_of_parts
    · rw [h1, Complex.ofReal_re, add_zero]
    · rw [h2]; simp
    · rw [h3, Complex.ofReal_re, sub_zero]
    · rw [h4]; simp
  · apply Vec3.ext
    · simp only [Qubit.getBlochVector, h1, h2, h3, h4]
      simp only [div_mul_div_comm, sqrt_two_mul_self]
      norm_num
    · simp only [Qubit.getBlochVector, h1, h2, h3, h4]
      norm_num
    · simp only [Qubit.getBlochVector, h1, h2, h3, h4]
      norm_num
  · apply Qubit.eq_of_parts <;> simp [Qubit.applyPauliX, Qubit.init]
  · apply Vec3.ext <;> simp [Qubit.getBlochVector, Qubit.applyPauliX, Qubit.init]
  · apply Qubit.eq_of_parts
    · rw [k1]; simp
    · rw [k2]; simp
    · rw [k3]; simp
    · rw [k4]; simp
  · apply Vec3.ext
    · simp only [Qubit.getBlochVector, k1, k2, k3, k4]; norm_num
    · simp only [Qubit.getBlochVector, k1, k2, k3, k4]; norm_num
    · simp only [Qubit.getBlochVector, k1, k2, k3, k4]; norm_num

/-! ## The sign of the `y` component -/

/-- Claim C2, evaluated at the state reached by `rotateX(pi/2)` and then
`applyPauliX` from the constructor's state: `getBlochVector` returns `(0, -1, 0)`,
whereas `2 Im(conj alpha * beta)` is `1` there and the formulas of the
specification give `(0, 1, 0)`; the `y` component has the opposite sign. -/
theorem getBlochVector_y_opposite_sign :
    (runGates [.rotX (Real.pi / 2), .pauliX] Qubit.init).getBlochVector =
      { x := 0, y := -1, z := 0 } ∧
    2 * ((starRingEnd ℂ) (runGates [.rotX (Real.pi / 2), .pauliX] Qubit.init).alpha
      * (runGates [.rotX (Real.pi / 2), .pauliX] Qubit.init).beta).im = 1 ∧
    specBlochVector (runGates [.rotX (Real.pi / 2), .pauliX] Qubit.init) =
      { x := 0, y := 1, z := 0 } := by
  have hv : (runGates [.rotX (Real.pi / 2), .pauliX] Qubit.init).getBlochVector =
      { x := 0, y := -1, z := 0 } := by
    simp only [runGates, Gate.apply]
    rw [getBlochVector_applyPauliX, getBlochVector_quarter]
    apply Vec3.ext <;> simp
  have hs := specBlochVector_eq (runGates [.rotX (Real.pi / 2), .pauliX] Qubit.init)
  rw [hv] at hs
  have hs2 : specBlochVector (runGates [.rotX (Real.pi / 2), .pauliX] Qubit.init) =
      { x := 0, y := 1, z := 0 } := by
    rw [hs]
    apply Vec3.ext <;> simp
  refine ⟨hv, ?_, hs2⟩
  have hy := congrArg Vec3.y hs2
  exact hy

/-- Claim C6, evaluated: `rotateX(pi/2)` takes the constructor's state to
`(cos(pi/4), -i*sin(pi/4))` as section 4.1 says, and `getBlochVector` then returns
`(0, 1, 0)`, whereas the projection of section 4.2 of that state is `(0, -1, 0)`. -/
theorem quarter_rotation_projection :
    Qubit.init.rotateX (Real.pi / 2) =
      { alpha := ((Real.cos (Real.pi / 4) : ℝ) : ℂ),
        beta := -Complex.I * ((Real.sin (Real.pi / 4) : ℝ) : ℂ) } ∧
    (Qubit.init.rotateX (Real.pi / 2)).getBlochVector = { x := 0, y := 1, z := 0 } ∧
    specBlochVector
      { alpha := ((Real.cos (Real.pi / 4) : ℝ) : ℂ),
        beta := -Complex.I * ((Real.sin (Real.pi / 4) : ℝ) : ℂ) } =
      { x := 0, y := -1, z := 0 } := by
  have hst : Qubit.init.rotateX (Real.pi / 2) =
      { alpha := ((Real.cos (Real.pi / 4) : ℝ) : ℂ),
        beta := -Complex.I * ((Real.sin (Real.pi / 4) : ℝ) : ℂ) } := by
    obtain ⟨h1, h2, h3, h4⟩ := rotateX_parts Qubit.init (Real.pi / 2)
    have hq : Real.pi / 2 / 2 = Real.pi / 4 := by ring
    rw [hq] at h1 h2 h3 h4
    apply Qubit.eq_of_parts
    · rw [h1]; simp [Qubit.init, -Complex.ofReal_cos, -Complex.ofReal_sin]
    · rw [h2]; simp [Qubit.init, -Complex.ofReal_cos, -Complex.ofReal_sin]
    · rw [h3]; simp [Qubit.init, -Complex.ofReal_cos, -Complex.ofReal_sin]
    · rw [h4]; simp [Qubit.init, -Complex.ofReal_cos, -Complex.ofReal_sin]
  refine ⟨hst, getBlochVector_quarter, ?_⟩
  rw [← hst, specBlochVector_eq, getBlochVector_quarter]

end BlochSphere
